import Mathlib

/-!
Shallow embedding of the yourdns-server resolution and certificate-issuance
core (src/index.js, the DNS server entry point, src/api.js), together with
proofs about the spec's claims.

Database tables are modelled as Lean lists kept in insertion order; SQL
queries become list functions; `randomUUID()` and `Date.now()` become
explicit `Nat` parameters; JavaScript regular-expression matching and the
X.509/RSA material produced by node-forge are opaque to every claim, so
they are abstracted as function parameters / opaque payload strings.
-/

deriving instance DecidableEq for Except

namespace YourDNS

/-- The record types accepted by the server (`recordTypes` in src/index.js). -/
inductive RecordType where
  | A
  | AAAA
  | CNAME
  | TXT
deriving DecidableEq

/-- `recordTypes` from src/index.js. -/
def recordTypes : List RecordType := [.A, .AAAA, .CNAME, .TXT]

/-- A row of the `records` table (id uuid, name, type, ttl, value, timestamp).
UUIDs and millisecond timestamps are modelled as `Nat`. -/
structure Record where
  id : Nat
  name : String
  type : RecordType
  ttl : Nat
  value : String
  timestamp : Nat
deriving DecidableEq

/-- ASCII lowercasing of a character list; models Postgres `LOWER`. -/
def lowerChars (s : List Char) : List Char := s.map Char.toLower

/-- `pushRecord` (src/index.js): INSERT with `LOWER($2)` applied to the name
and `Date.now()` as the timestamp; the table is modelled as a list in
insertion order. -/
def pushRecord (store : List Record) (id : Nat) (name : String)
    (type : RecordType) (ttl : Nat) (value : String) (now : Nat) : List Record :=
  store ++ [⟨id, String.mk (lowerChars name.data), type, ttl, value, now⟩]

/-- Postgres `string_to_array(s, '.')` for a nonempty `s`: split at dots,
keeping empty segments. -/
def splitOnDot : List Char → List (List Char)
  | [] => [[]]
  | c :: rest =>
    if c = '.' then [] :: splitOnDot rest
    else
      match splitOnDot rest with
      | [] => [[c]]
      | g :: gs => (c :: g) :: gs

/-- Inverse of `splitOnDot`: join labels with dots. -/
def joinDots : List (List Char) → List Char
  | [] => []
  | [l] => l
  | l :: ls => l ++ '.' :: joinDots ls

/-- Postgres `array_length(string_to_array(s, '.'), 1)`: `NULL` (here `none`)
for the empty string, whose split is the empty array. -/
def labelCount (s : String) : Option Nat :=
  if s.data = [] then none else some (splitOnDot s.data).length

/-- The SQL condition
`array_length(string_to_array(name,'.'),1) = array_length(string_to_array($1,'.'),1)`;
a `NULL` on either side makes the comparison non-true. -/
def labelCountEqB (p q : String) : Bool :=
  match labelCount p, labelCount q with
  | some a, some b => a == b
  | _, _ => false

mutual

/-- Postgres `LIKE` matching of `s` against pattern `p`: `%` matches any
substring, `_` any single character, a backslash escapes the next pattern
character, anything else is literal.  (Postgres raises an error on a pattern
ending in a bare escape character; that pattern is treated as matching
nothing here.) -/
def likeMatch : List Char → List Char → Bool
  | [] => fun s => s.isEmpty
  | c :: ps => fun s =>
    if c = '%' then (List.tails s).any fun t => likeMatch ps t
    else if c = '_' then
      match s with
      | [] => false
      | _ :: s' => likeMatch ps s'
    else if c = '\\' then likeMatchEsc ps s
    else
      match s with
      | [] => false
      | c' :: s' => (c == c') && likeMatch ps s'

/-- The escaped state of `likeMatch`: the pattern character after a `\`
matches literally (and a pattern ending in a bare `\` matches nothing). -/
def likeMatchEsc : List Char → List Char → Bool
  | [] => fun _ => false
  | c2 :: ps => fun s =>
    match s with
    | [] => false
    | c' :: s' => (c2 == c') && likeMatch ps s'

end

/-- The character translation of `replace(name, '*', '%')`. -/
def star2pct (c : Char) : Char := if c = '*' then '%' else c

/-- `replace(name, '*', '%')` from the `getRecords` query. -/
def sqlLikePattern (name : String) : List Char :=
  name.data.map star2pct

/-- The WHERE clause of `getRecords` (src/index.js):
`LOWER($1) LIKE replace(name, '*', '%')` conjoined with the label-count
equality. -/
def recMatches (query : String) (r : Record) : Bool :=
  likeMatch (sqlLikePattern r.name) (lowerChars query.data) && labelCountEqB r.name query

/-- Stable insertion of a record into a list ascending by timestamp. -/
def insertTs (r : Record) : List Record → List Record
  | [] => [r]
  | x :: xs => if r.timestamp ≤ x.timestamp then r :: x :: xs else x :: insertTs r xs

/-- `ORDER BY timestamp ASC`, modelled as a stable ascending sort. -/
def sortTs : List Record → List Record
  | [] => []
  | x :: xs => insertTs x (sortTs xs)

/-- `getRecords` (src/index.js): all records whose (wildcard) name matches the
queried name under SQL LIKE semantics, with equal dot-separated label counts,
ordered by timestamp ascending. -/
def getRecords (store : List Record) (name : String) : List Record :=
  sortTs (store.filter (recMatches name))

/-- `findByOwner` (src/index.js): TXT records whose name is LIKE `-.%` and
whose value is the owner identifier, ordered by timestamp ascending. -/
def findByOwner (store : List Record) (owner : String) : List Record :=
  sortTs (store.filter fun r =>
    likeMatch "-.%".data r.name.data && r.type == RecordType.TXT && r.value == owner)

/-- A row of the `proxy_rules` table. -/
structure ProxyRule where
  id : Nat
  rule : String
  addr : String
deriving DecidableEq

/-- `getProxyDNS` (src/index.js): scan the rules in retrieval order and return
the address of the first whose pattern matches the domain.

`jsMatch pat dom` abstracts the truthiness of
`dom.match(new RegExp(pat, "i"))`; `none` models the case where constructing
or running the regular expression throws.  Such an exception is not caught by
`getProxyDNS`, so it propagates: that is the `Except.error` outcome. -/
def getProxyDNS (jsMatch : String → String → Option Bool) :
    List ProxyRule → String → Except Unit (Option String)
  | [], _ => .ok none
  | r :: rs, domain =>
    match jsMatch r.rule domain with
    | none => .error ()
    | some true => .ok (some r.addr)
    | some false => getProxyDNS jsMatch rs domain

/-- A value inside a DNS answer object (a string or a numeric code). -/
inductive AVal where
  | str : String → AVal
  | num : Nat → AVal
deriving DecidableEq

/-- A JavaScript object, as built by the DNS request handler for an answer:
an association list of field names to values, in construction order. -/
abbrev DnsAnswer := List (String × AVal)

/-- The dns2 `Packet.TYPE` numeric codes used by the handler. -/
def typeCode : RecordType → Nat
  | .A => 1
  | .AAAA => 28
  | .CNAME => 5
  | .TXT => 16

/-- The answer object the handler pushes for one local record:
`Object.assign({ mame: record.name, type: ..., class: ..., ttl: ... },` the
type-dependent payload `)`.  Note the source writes the field `mame`, not
`name`.  `Packet.CLASS.IN` is 1. -/
def recordToAnswer (r : Record) : DnsAnswer :=
  [("mame", .str r.name), ("type", .num (typeCode r.type)),
   ("class", .num 1), ("ttl", .num r.ttl)] ++
  (match r.type with
   | .CNAME => [("domain", .str r.value)]
   | .TXT => [("data", .str r.value)]
   | _ => [("address", .str r.value)])

/-- The `handle` callback of the DNS server (main entry file): try the proxy
rules first; on a match answer exclusively from that upstream; otherwise
consult the local record store; otherwise forward to the default resolver.

`proxyAnswers addr name` abstracts `(await UDPClient({dns: addr})(name)).answers`
and `defaultAnswers name` abstracts `(await defaultResolve(name)).answers`.
An uncaught exception from the proxy scan propagates as `Except.error`. -/
def handle (jsMatch : String → String → Option Bool)
    (proxyAnswers : String → String → List DnsAnswer)
    (defaultAnswers : String → List DnsAnswer)
    (rules : List ProxyRule) (store : List Record) (name : String) :
    Except Unit (List DnsAnswer) :=
  match getProxyDNS jsMatch rules name with
  | .error e => .error e
  | .ok (some toAsk) => .ok (proxyAnswers toAsk name)
  | .ok none =>
    let records := getRecords store name
    if records.length > 0 then .ok (records.map recordToAnswer)
    else .ok (defaultAnswers name)

/-! ## Certificates (src/index.js, second half) -/

/-- `VALID_MS`: one year in milliseconds. -/
def VALID_MS : Nat := 365 * 24 * 3600 * 1000

/-- `VALID_MS_CA`: twenty-five years in milliseconds. -/
def VALID_MS_CA : Nat := 25 * VALID_MS

/-- A row of the `certs` table.  `key`/`cert` hold the DER-encoded private
key and certificate, opaque to every claim, so they are kept as abstract
strings.  The certificate's serial number is `id` with dashes removed, so it
is determined by `id`.  The source's column `until` is a reserved word in
Lean, hence the name `untilTs`. -/
structure CertPair where
  id : Nat
  domain : String
  key : String
  cert : String
  timestamp : Nat
  untilTs : Nat
deriving DecidableEq

/-- `getCert` (src/index.js): `SELECT * FROM certs WHERE domain = $1`,
first row. -/
def getCert (store : List CertPair) (domain : String) : Option CertPair :=
  store.find? fun p => p.domain == domain

/-- `removeCertByID` (src/index.js): `DELETE FROM certs WHERE id = $1`. -/
def removeCertByID (store : List CertPair) (id : Nat) : List CertPair :=
  store.filter fun p => p.id != id

/-- The failure modes of certificate generation visible to the claims.
`precondition` stands for the TypeError raised at `caCert.key` when
`getCert(".")` returned no row (no root CA yet); `authorization` is the
spec's `AuthorizationError` for failed ownership gating. -/
inductive CertError where
  | precondition
  | authorization
deriving DecidableEq

/-- `generateCert` (src/index.js).  Key generation, X.509 assembly and
signing are abstracted into the opaque `keyBin`/`certBin` payloads;
`id` models `randomUUID()` and `now` models `new Date()`.  The control flow
and store effects follow the source: look up the old pair for `domain`,
for a leaf load the root pair (crashing if absent), then delete the old pair
by id and insert the new row under `ca ? "." : domain`. -/
def generateCert (store : List CertPair) (domain : String) (ca : Bool)
    (id now : Nat) (keyBin certBin : String) :
    Except CertError (CertPair × List CertPair) :=
  let old := getCert store domain
  if ca then
    let pair : CertPair := ⟨id, ".", keyBin, certBin, now, now + VALID_MS_CA⟩
    let store1 := match old with
      | some o => removeCertByID store o.id
      | none => store
    .ok (pair, store1 ++ [pair])
  else
    match getCert store "." with
    | none => .error .precondition
    | some _ =>
      let pair : CertPair := ⟨id, domain, keyBin, certBin, now, now + VALID_MS⟩
      let store1 := match old with
        | some o => removeCertByID store o.id
        | none => store
      .ok (pair, store1 ++ [pair])

/-- The certificate part of `init` (src/index.js):
`if(!(await getCert("."))) await generateCert(".", true)`. -/
def initCerts (store : List CertPair) (id now : Nat) (keyBin certBin : String) :
    List CertPair :=
  match getCert store "." with
  | some _ => store
  | none =>
    match generateCert store "." true id now keyBin certBin with
    | .ok (_, s) => s
    | .error _ => store

/-! ## Ownership-gated issuance (spec §4.4) -/

/-- Modelled from the spec: the repository's src has no `issueCertificate`
boundary function, so the "2nd-level base" of a domain is taken from the
spec's words — the last two dot-separated labels of the domain. -/
def base2 (domain : String) : String :=
  let ls := splitOnDot domain.data
  String.mk (joinDots (ls.drop (ls.length - 2)))

/-- Modelled from the spec: the reserved ownership-record name `-.<base>` for
a domain's 2nd-level base (spec §3, "Ownership record"). -/
def ownershipName (domain : String) : String :=
  String.mk ('-' :: '.' :: (base2 domain).data)

/-- Modelled from the spec: whether the record store holds a TXT ownership
record for `domain`'s 2nd-level base whose value is `owner`. -/
def hasOwnership (records : List Record) (owner domain : String) : Bool :=
  records.any fun r =>
    r.type == RecordType.TXT && r.value == owner && r.name == ownershipName domain

/-- Modelled from the spec: `issueCertificate(domain, ownerProof?)` (§4.4) is
absent from src; per the spec it optionally verifies ownership — when an
owner identifier is supplied it requires a matching ownership TXT record for
the domain's 2nd-level base (consulting `findByOwner`), rejecting with an
authorization error otherwise — and then performs leaf generation via
`generateCert`. -/
def issueCertificate (records : List Record) (certs : List CertPair)
    (domain : String) (ownerProof : Option String)
    (id now : Nat) (keyBin certBin : String) :
    Except CertError (CertPair × List CertPair) :=
  match ownerProof with
  | some owner =>
    if (findByOwner records owner).any (fun r => r.name == ownershipName domain) then
      generateCert certs domain false id now keyBin certBin
    else
      .error .authorization
  | none => generateCert certs domain false id now keyBin certBin

/-! ## Helper lemmas -/

theorem find?_filter_of_find? {α : Type} {p q : α → Bool} {l : List α} {a : α}
    (h : l.find? p = some a) (hq : q a = true) : (l.filter q).find? p = some a := by
  induction l with
  | nil => simp at h
  | cons x xs ih =>
    rw [List.find?_cons] at h
    cases hx : p x with
    | true =>
      rw [hx] at h
      cases h
      simp [List.filter_cons, hq, List.find?_cons, hx]
    | false =>
      rw [hx] at h
      rw [List.filter_cons]
      cases hqx : q x with
      | true => simpa [List.find?_cons, hx] using ih h
      | false => simpa using ih h

theorem getCert_domain_eq {s : List CertPair} {d : String} {c : CertPair}
    (h : getCert s d = some c) : c.domain = d := by
  have := List.find?_some h
  simpa using this

theorem getCert_mem {s : List CertPair} {d : String} {c : CertPair}
    (h : getCert s d = some c) : c ∈ s :=
  List.mem_of_find?_eq_some h

theorem getCert_append_left {s t : List CertPair} {d : String} {c : CertPair}
    (h : getCert s d = some c) : getCert (s ++ t) d = some c := by
  unfold getCert at h ⊢
  rw [List.find?_append, h]
  rfl

theorem getCert_append_right {s t : List CertPair} {d : String}
    (h : getCert s d = none) : getCert (s ++ t) d = getCert t d := by
  unfold getCert at h ⊢
  rw [List.find?_append, h]
  rfl

/-- Evaluating `generateCert` in CA mode: it never fails, the new pair is
stored under the sentinel domain `"."`, and the pre-insertion delete targets
the pair previously stored for the `domain` argument. -/
theorem generateCert_ca_ok (s : List CertPair) (d : String) (id now : Nat) (k cb : String) :
    generateCert s d true id now k cb =
      .ok (⟨id, ".", k, cb, now, now + VALID_MS_CA⟩,
        (match getCert s d with
         | some o => removeCertByID s o.id
         | none => s) ++ [⟨id, ".", k, cb, now, now + VALID_MS_CA⟩]) := by
  simp [generateCert]

/-- Evaluating `generateCert` in leaf mode when a root pair exists. -/
theorem generateCert_leaf_ok {s : List CertPair} {c : CertPair} (hc : getCert s "." = some c)
    (d : String) (id now : Nat) (k cb : String) :
    generateCert s d false id now k cb =
      .ok (⟨id, d, k, cb, now, now + VALID_MS⟩,
        (match getCert s d with
         | some o => removeCertByID s o.id
         | none => s) ++ [⟨id, d, k, cb, now, now + VALID_MS⟩]) := by
  simp [generateCert, hc]

/-- `generateCert_leaf_ok` specialised to a domain that has an old pair. -/
theorem generateCert_leaf_ok_old {s : List CertPair} {c o : CertPair} {d : String}
    (hc : getCert s "." = some c) (hold : getCert s d = some o)
    (id now : Nat) (k cb : String) :
    generateCert s d false id now k cb =
      .ok (⟨id, d, k, cb, now, now + VALID_MS⟩,
        removeCertByID s o.id ++ [⟨id, d, k, cb, now, now + VALID_MS⟩]) := by
  rw [generateCert_leaf_ok hc, hold]

/-- `generateCert_leaf_ok` specialised to a domain that has no old pair. -/
theorem generateCert_leaf_ok_none {s : List CertPair} {c : CertPair} {d : String}
    (hc : getCert s "." = some c) (hold : getCert s d = none)
    (id now : Nat) (k cb : String) :
    generateCert s d false id now k cb =
      .ok (⟨id, d, k, cb, now, now + VALID_MS⟩, s ++ [⟨id, d, k, cb, now, now + VALID_MS⟩]) := by
  rw [generateCert_leaf_ok hc, hold]

/-- After `initCerts` there is always a pair for the sentinel domain `"."`. -/
theorem initCerts_hasRoot (s : List CertPair) (id now : Nat) (keyBin certBin : String) :
    ∃ c, getCert (initCerts s id now keyBin certBin) "." = some c := by
  cases hroot : getCert s "." with
  | some c =>
    refine ⟨c, ?_⟩
    simp [initCerts, hroot]
  | none =>
    refine ⟨⟨id, ".", keyBin, certBin, now, now + VALID_MS_CA⟩, ?_⟩
    rw [initCerts, hroot, generateCert_ca_ok s "." id now keyBin certBin, hroot]
    rw [getCert_append_right hroot]
    simp [getCert]

/-! ## C6: root CA bootstrap is idempotent -/

/-- C6: running the certificate bootstrap twice generates the self-signed
root pair for the sentinel domain `"."` at most once — the second run leaves
the store of the first run unchanged — and a store that already has a root
entry is left unchanged entirely. -/
theorem c6_init_idempotent (s : List CertPair) (id1 t1 : Nat) (k1 c1 : String)
    (id2 t2 : Nat) (k2 c2 : String) :
    initCerts (initCerts s id1 t1 k1 c1) id2 t2 k2 c2 = initCerts s id1 t1 k1 c1
    ∧ (∀ c, getCert s "." = some c → initCerts s id1 t1 k1 c1 = s) := by
  constructor
  · obtain ⟨c, hc⟩ := initCerts_hasRoot s id1 t1 k1 c1
    rw [initCerts, hc]
  · intro c hc
    rw [initCerts, hc]

/-- C6 witness: concrete double bootstrap from the empty store. -/
theorem c6_init_idempotent_witness :
    initCerts (initCerts [] 1 10 "k1" "c1") 2 20 "k2" "c2" = initCerts [] 1 10 "k1" "c1"
    ∧ initCerts [⟨7, ".", "rk", "rc", 0, 99⟩] 1 10 "k1" "c1" = [⟨7, ".", "rk", "rc", 0, 99⟩] :=
  ⟨(c6_init_idempotent [] 1 10 "k1" "c1" 2 20 "k2" "c2").1,
   (c6_init_idempotent [⟨7, ".", "rk", "rc", 0, 99⟩] 1 10 "k1" "c1" 2 20 "k2" "c2").2
     ⟨7, ".", "rk", "rc", 0, 99⟩ (by decide)⟩

/-! ## C7: leaf issuance requires a root CA -/

/-- C7: for any domain, leaf (non-CA) certificate generation fails — at the
point where the source dereferences the missing root row, modelled as the
precondition error — exactly when no pair for the sentinel domain `"."`
exists, succeeds whenever a root pair exists, and in particular succeeds on
any store produced by the bootstrap `initCerts`. -/
theorem c7_root_precondition (s : List CertPair) (d : String) (id now : Nat) (k cb : String) :
    (getCert s "." = none → generateCert s d false id now k cb = .error .precondition)
    ∧ (∀ c, getCert s "." = some c → ∃ pr s', generateCert s d false id now k cb = .ok (pr, s'))
    ∧ (∀ id0 t0 k0 cb0, ∃ pr s',
        generateCert (initCerts s id0 t0 k0 cb0) d false id now k cb = .ok (pr, s')) := by
  refine ⟨fun h => by simp [generateCert, h], fun c hc => ?_, fun id0 t0 k0 cb0 => ?_⟩
  · exact ⟨_, _, generateCert_leaf_ok hc d id now k cb⟩
  · obtain ⟨c, hc⟩ := initCerts_hasRoot s id0 t0 k0 cb0
    exact ⟨_, _, generateCert_leaf_ok hc d id now k cb⟩

/-- C7 witness: with an empty store issuance fails with the precondition
error; after the bootstrap it succeeds. -/
theorem c7_root_precondition_witness :
    generateCert [] "example.com" false 5 50 "k" "cb" = .error .precondition
    ∧ ∃ pr s', generateCert (initCerts [] 1 10 "k0" "cb0") "example.com" false 5 50 "k" "cb"
        = .ok (pr, s') :=
  ⟨(c7_root_precondition [] "example.com" 5 50 "k" "cb").1 (by decide),
   (c7_root_precondition [] "example.com" 5 50 "k" "cb").2.2 1 10 "k0" "cb0"⟩

/-! ## C10: locally built answers carry no name field -/

/-- C10: every answer object built from a local record has no `name` field;
the record's name sits under the misspelled key `mame` instead. -/
theorem c10_no_name_field (r : Record) :
    (recordToAnswer r).lookup "name" = none
    ∧ (recordToAnswer r).lookup "mame" = some (AVal.str r.name) := by
  cases r with
  | mk id name type ttl value timestamp => cases type <;> exact ⟨rfl, rfl⟩

/-! ## C2: strict resolution order -/

/-- C2: resolution order is strict.  Whenever the proxy scan selects an
upstream, the response consists exclusively of that upstream's answers, for
every record store (so also when a matching local record exists); only when
no rule matches is the local store consulted; only when the local store has
no match is the query forwarded to the single default resolver. -/
theorem c2_resolution_order (jm : String → String → Option Bool)
    (pa : String → String → List DnsAnswer) (da : String → List DnsAnswer)
    (rules : List ProxyRule) (store : List Record) (name : String) :
    (∀ addr, getProxyDNS jm rules name = .ok (some addr) →
      handle jm pa da rules store name = .ok (pa addr name))
    ∧ (getProxyDNS jm rules name = .ok none → getRecords store name ≠ [] →
      handle jm pa da rules store name = .ok ((getRecords store name).map recordToAnswer))
    ∧ (getProxyDNS jm rules name = .ok none → getRecords store name = [] →
      handle jm pa da rules store name = .ok (da name)) := by
  refine ⟨fun addr h => ?_, fun h hne => ?_, fun h he => ?_⟩
  · simp [handle, h]
  · have hlen : 0 < (getRecords store name).length := List.length_pos.mpr hne
    simp [handle, h, hlen]
  · simp [handle, h, he]

/-- C2 witness: a query matching a proxy rule is answered by the proxy even
though a local record matches; a query matching only a local record is
answered locally; a query matching nothing goes to the default resolver. -/
theorem c2_resolution_order_witness :
    handle (fun _ _ => some true) (fun a n => [[("proxy", AVal.str a), ("q", AVal.str n)]])
      (fun _ => [[("def", AVal.num 0)]])
      [⟨0, "rule", "9.9.9.9"⟩] [⟨1, "host.delegated.test", .A, 60, "1.2.3.4", 0⟩]
      "host.delegated.test"
      = .ok [[("proxy", AVal.str "9.9.9.9"), ("q", AVal.str "host.delegated.test")]]
    ∧ handle (fun _ _ => some false) (fun a n => [[("proxy", AVal.str a), ("q", AVal.str n)]])
      (fun _ => [[("def", AVal.num 0)]])
      [⟨0, "rule", "9.9.9.9"⟩] [⟨1, "a.example.com", .A, 60, "10.0.0.1", 0⟩] "a.example.com"
      = .ok ((getRecords [⟨1, "a.example.com", .A, 60, "10.0.0.1", 0⟩] "a.example.com").map
          recordToAnswer)
    ∧ handle (fun _ _ => some false) (fun a n => [[("proxy", AVal.str a), ("q", AVal.str n)]])
      (fun _ => [[("def", AVal.num 0)]]) [] [] "zzz" = .ok [[("def", AVal.num 0)]] :=
  ⟨(c2_resolution_order (fun _ _ => some true)
      (fun a n => [[("proxy", AVal.str a), ("q", AVal.str n)]]) (fun _ => [[("def", AVal.num 0)]])
      [⟨0, "rule", "9.9.9.9"⟩] [⟨1, "host.delegated.test", .A, 60, "1.2.3.4", 0⟩]
      "host.delegated.test").1 "9.9.9.9" (by decide),
   (c2_resolution_order (fun _ _ => some false)
      (fun a n => [[("proxy", AVal.str a), ("q", AVal.str n)]]) (fun _ => [[("def", AVal.num 0)]])
      [⟨0, "rule", "9.9.9.9"⟩] [⟨1, "a.example.com", .A, 60, "10.0.0.1", 0⟩]
      "a.example.com").2.1 (by decide) (by decide),
   (c2_resolution_order (fun _ _ => some false)
      (fun a n => [[("proxy", AVal.str a), ("q", AVal.str n)]]) (fun _ => [[("def", AVal.num 0)]])
      [] [] "zzz").2.2 (by decide) (by decide)⟩

/-! ## C4: proxy upstream lookup (corrected) -/

/-- C4 counterexample: the claim says a rule whose pattern raises a runtime
error is treated as "no match" for that rule.  In the source the
`new RegExp(...)`/`match` call of `getProxyDNS` is not guarded by any
try/catch, so the error propagates and later rules are never consulted: with
a first rule whose match attempt throws and a second rule that matches, the
scan fails instead of returning the second rule's address. -/
theorem c4_counterexample :
    getProxyDNS (fun pat _ => if pat = "(" then none else some true)
      [⟨0, "(", "1.1.1.1"⟩, ⟨1, "a", "2.2.2.2"⟩] "abc" = .error ()
    ∧ getProxyDNS (fun pat _ => if pat = "(" then none else some true)
      [⟨0, "(", "1.1.1.1"⟩, ⟨1, "a", "2.2.2.2"⟩] "abc" ≠ .ok (some "2.2.2.2") :=
  ⟨rfl, by decide⟩

/-- C4 as amended: when every rule's pattern compiles and matches without
throwing, `getProxyDNS` returns the address of the first rule whose pattern
matches the domain, and `none` when no rule matches; a rule whose match
attempt throws — reached before any matching rule — makes `getProxyDNS`
itself fail with the propagated error rather than skipping the rule. -/
theorem c4_first_match (jm : String → String → Option Bool)
    (rules : List ProxyRule) (domain : String) :
    ((∀ r ∈ rules, (jm r.rule domain).isSome = true) →
      getProxyDNS jm rules domain =
        .ok ((rules.find? fun r => (jm r.rule domain).getD false).map ProxyRule.addr))
    ∧ (∀ pre bad rest, rules = pre ++ bad :: rest →
        (∀ r ∈ pre, jm r.rule domain = some false) →
        jm bad.rule domain = none →
        getProxyDNS jm rules domain = .error ()) := by
  constructor
  · intro h
    induction rules with
    | nil => rfl
    | cons r rs ih =>
      have hr := h r (List.mem_cons_self r rs)
      cases hjr : jm r.rule domain with
      | none => rw [hjr] at hr; simp at hr
      | some b =>
        cases b with
        | false =>
          simp only [getProxyDNS, hjr, List.find?_cons, Option.getD_some, Bool.false_eq_true,
            if_false]
          exact ih fun x hx => h x (List.mem_cons_of_mem r hx)
        | true => simp [getProxyDNS, hjr, List.find?_cons]
  · intro pre bad rest hrules hpre hbad
    subst hrules
    induction pre with
    | nil => simp [getProxyDNS, hbad]
    | cons p ps ih =>
      have hp := hpre p (List.mem_cons_self p ps)
      simp only [List.cons_append, getProxyDNS, hp]
      exact ih fun x hx => hpre x (List.mem_cons_of_mem p hx)

/-- C4 witness: first-match selection on an error-free rule set, and
propagation of a thrown match error that precedes any matching rule. -/
theorem c4_first_match_witness :
    getProxyDNS (fun pat _ => some (decide (pat = "b")))
      [⟨0, "a", "1.1.1.1"⟩, ⟨1, "b", "2.2.2.2"⟩] "x"
      = .ok (([(⟨0, "a", "1.1.1.1"⟩ : ProxyRule), ⟨1, "b", "2.2.2.2"⟩].find? fun r =>
          ((fun pat _ => some (decide (pat = "b"))) r.rule "x").getD false).map ProxyRule.addr)
    ∧ getProxyDNS (fun pat _ => if pat = "(" then none else some false)
      [⟨3, "ok", "3.3.3.3"⟩, ⟨4, "(", "4.4.4.4"⟩] "x" = .error () :=
  ⟨(c4_first_match (fun pat _ => some (decide (pat = "b")))
      [⟨0, "a", "1.1.1.1"⟩, ⟨1, "b", "2.2.2.2"⟩] "x").1 (by decide),
   (c4_first_match (fun pat _ => if pat = "(" then none else some false)
      [⟨3, "ok", "3.3.3.3"⟩, ⟨4, "(", "4.4.4.4"⟩] "x").2
     [⟨3, "ok", "3.3.3.3"⟩] ⟨4, "(", "4.4.4.4"⟩ [] rfl (by decide) (by decide)⟩

/-! ## C9 and C5: certificate replacement -/

/-- Deleting the row with `o`'s id from a table with pairwise-distinct ids
removes exactly the occurrences of `o` from every predicate count. -/
theorem countP_filter_id_ne {l : List CertPair} {o : CertPair} (p : CertPair → Bool)
    (hids : (l.map CertPair.id).Nodup) (ho : o ∈ l) :
    ((l.filter fun x => x.id != o.id).countP p + (if p o then 1 else 0)) = l.countP p := by
  induction l with
  | nil => cases ho
  | cons a t ih =>
    rw [List.map_cons, List.nodup_cons] at hids
    obtain ⟨ha, ht⟩ := hids
    rcases List.mem_cons.mp ho with h | h
    · subst h

      have htfilt : (t.filter fun x => x.id != o.id) = t := by
        refine List.filter_eq_self.mpr fun x hx => ?_
        simp only [bne_iff_ne, ne_eq]
        intro hxo
        exact ha (hxo ▸ List.mem_map_of_mem CertPair.id hx)
      simp [List.filter_cons, htfilt, List.countP_cons]
    · have hao : a.id ≠ o.id := by
        intro hao
        exact ha (hao ▸ List.mem_map_of_mem CertPair.id h)
      have ihh := ih ht h
      cases hpa : p a <;> cases hpo : p o <;>
        simp [List.filter_cons, hao, List.countP_cons, hpa, hpo] at ihh ⊢ <;> omega

/-- C9: CA-mode generation with a domain argument `d` other than the
sentinel persists the new pair under `"."` while the pre-insertion delete
targets the pair stored for `d`: `d`'s own pair is removed, the count of
sentinel-domain entries grows by one (so a store that already had a root
ends with two), and the count of `d`-entries drops by one. -/
theorem c9_ca_mode_mismatch (s : List CertPair) (d : String) (id now : Nat)
    (k cb : String) (o : CertPair)
    (hd : d ≠ ".") (hold : getCert s d = some o)
    (hids : (s.map CertPair.id).Nodup) :
    ∃ p s', generateCert s d true id now k cb = .ok (p, s')
      ∧ p.domain = "."
      ∧ s' = (s.filter fun x => x.id != o.id) ++ [p]
      ∧ (s'.countP fun x => x.domain == ".") = (s.countP fun x => x.domain == ".") + 1
      ∧ ((s'.countP fun x => x.domain == d) + 1) = s.countP fun x => x.domain == d := by
  have hmem : o ∈ s := getCert_mem hold
  have hdom : o.domain = d := getCert_domain_eq hold
  have hroot0 : (o.domain == ".") = false := by
    simp [hdom, hd]
  have hdompos : (o.domain == d) = true := by simp [hdom]
  refine ⟨⟨id, ".", k, cb, now, now + VALID_MS_CA⟩,
    (s.filter fun x => x.id != o.id) ++ [⟨id, ".", k, cb, now, now + VALID_MS_CA⟩],
    ?_, rfl, rfl, ?_, ?_⟩
  · rw [generateCert_ca_ok, hold]
    rfl
  · have hc := countP_filter_id_ne (fun x => x.domain == ".") hids hmem
    simp only [hroot0, Bool.false_eq_true, if_false, Nat.add_zero] at hc
    simp [List.countP_append, List.countP_cons, hc]
  · have hc := countP_filter_id_ne (fun x => x.domain == d) hids hmem
    simp only [hdompos, if_true, if_pos] at hc
    have hpd : (("." : String) == d) = false := by
      simp [show "." ≠ d from fun h => hd h.symm]
    simp only [List.countP_append, List.countP_cons, List.countP_nil, hpd, Bool.false_eq_true,
      if_false, Nat.add_zero, Nat.zero_add]
    omega

/-- C9 witness: a store holding one root pair and one pair for
`old.example.com`; CA-mode generation for that domain deletes the domain's
pair and leaves two entries under the sentinel. -/
theorem c9_ca_mode_mismatch_witness :
    ∃ p s', generateCert [⟨1, ".", "rk", "rc", 0, 99⟩, ⟨2, "old.example.com", "ok", "oc", 1, 98⟩]
        "old.example.com" true 3 50 "k" "cb" = .ok (p, s')
      ∧ p.domain = "."
      ∧ s' = ([⟨1, ".", "rk", "rc", 0, 99⟩, ⟨2, "old.example.com", "ok", "oc", 1, 98⟩].filter
          fun x => x.id != (2 : Nat)) ++ [p]
      ∧ (s'.countP fun x => x.domain == ".")
        = ([(⟨1, ".", "rk", "rc", 0, 99⟩ : CertPair),
            ⟨2, "old.example.com", "ok", "oc", 1, 98⟩].countP fun x => x.domain == ".") + 1
      ∧ ((s'.countP fun x => x.domain == "old.example.com") + 1)
        = [(⟨1, ".", "rk", "rc", 0, 99⟩ : CertPair),
           ⟨2, "old.example.com", "ok", "oc", 1, 98⟩].countP
            fun x => x.domain == "old.example.com" :=
  c9_ca_mode_mismatch [⟨1, ".", "rk", "rc", 0, 99⟩, ⟨2, "old.example.com", "ok", "oc", 1, 98⟩]
    "old.example.com" 3 50 "k" "cb" ⟨2, "old.example.com", "ok", "oc", 1, 98⟩
    (by decide) (by decide) (by decide)

/-- In a store whose pairs all have domains other than `d`, appending a pair
for `d` makes it the unique `getCert` result for `d`. -/
theorem getCert_append_singleton {st : List CertPair} {d : String}
    (hnone : ∀ x ∈ st, x.domain ≠ d) (p : CertPair) (hp : p.domain = d) :
    getCert (st ++ [p]) d = some p := by
  have h0 : getCert st d = none := by
    refine List.find?_eq_none.mpr fun x hx => ?_
    simp [hnone x hx]
  rw [getCert_append_right h0]
  simp [getCert, hp]

/-- C5: issuing a leaf pair for a non-sentinel domain `d` replaces by
delete-then-insert; two reissues in sequence succeed, leave exactly one pair
for `d` — non-expired at issuance time — and the pair's id (from which the
certificate serial number is derived) is the second call's fresh id,
different from the first call's. -/
theorem c5_reissue_replaces (s : List CertPair) (d : String) (c : CertPair)
    (id1 t1 id2 t2 : Nat) (k1 cb1 k2 cb2 : String)
    (hroot : getCert s "." = some c) (hd : d ≠ ".")
    (huniq : ∀ a ∈ s, ∀ b ∈ s, a.domain = d → b.domain = d → a = b)
    (hids : (s.map CertPair.id).Nodup)
    (hf1 : ∀ p ∈ s, p.id ≠ id1)
    (hne : id1 ≠ id2) :
    ∃ p1 s1 p2 s2,
      generateCert s d false id1 t1 k1 cb1 = .ok (p1, s1)
      ∧ generateCert s1 d false id2 t2 k2 cb2 = .ok (p2, s2)
      ∧ s1 = (match getCert s d with
              | some o => removeCertByID s o.id
              | none => s) ++ [p1]
      ∧ p1.id = id1 ∧ p2.id = id2 ∧ p2.id ≠ p1.id
      ∧ (s2.countP fun x => x.domain == d) = 1
      ∧ p2 ∈ s2 ∧ p2.domain = d ∧ t2 < p2.untilTs := by
  have hVALID : 0 < VALID_MS := by decide
  set p1 : CertPair := ⟨id1, d, k1, cb1, t1, t1 + VALID_MS⟩ with hp1
  set p2 : CertPair := ⟨id2, d, k2, cb2, t2, t2 + VALID_MS⟩ with hp2
  cases hold : getCert s d with
  | none =>
    have hnos : ∀ x ∈ s, x.domain ≠ d := by
      intro x hx
      have := List.find?_eq_none.mp hold x hx
      simpa using this
    have h1 := generateCert_leaf_ok_none hroot hold id1 t1 k1 cb1
    have hroot1 : getCert (s ++ [p1]) "." = some c := getCert_append_left hroot
    have hold1 : getCert (s ++ [p1]) d = some p1 := getCert_append_singleton hnos p1 rfl
    have h2 := generateCert_leaf_ok_old hroot1 hold1 id2 t2 k2 cb2
    have hfilt : removeCertByID (s ++ [p1]) p1.id = s := by
      rw [removeCertByID, List.filter_append]
      have hs : (s.filter fun x => x.id != p1.id) = s := by
        refine List.filter_eq_self.mpr fun x hx => ?_
        simp [hf1 x hx]
      simp [hs]
    rw [hfilt] at h2
    refine ⟨p1, s ++ [p1], p2, s ++ [p2], h1, h2, rfl, rfl, rfl, by simp [hp1, hp2, Ne.symm hne],
      ?_, by simp, rfl, by simp [hp2]; omega⟩
    have h0 : (s.countP fun x => x.domain == d) = 0 :=
      List.countP_eq_zero.mpr fun x hx => by simp [hnos x hx]
    simp [List.countP_append, h0, List.countP_cons]
  | some o =>
    have hom : o ∈ s := getCert_mem hold
    have hod : o.domain = d := getCert_domain_eq hold
    have h1 := generateCert_leaf_ok_old hroot hold id1 t1 k1 cb1
    set st1 : List CertPair := removeCertByID s o.id with hst1
    have hsub : ∀ x ∈ st1, x ∈ s := by
      intro x hx
      exact (List.mem_filter.mp hx).1
    have hnos : ∀ x ∈ st1, x.domain ≠ d := by
      intro x hx hxd
      have hxs := (List.mem_filter.mp hx).1
      have hxo : x.id ≠ o.id := by
        have := (List.mem_filter.mp hx).2
        simpa using this
      exact hxo (congrArg CertPair.id (huniq x hxs o hom hxd hod))
    have hco : c.id ≠ o.id := by
      intro hco
      have hceq : c = o := List.inj_on_of_nodup_map hids (getCert_mem hroot) hom hco
      exact hd (by rw [← hod, ← hceq, getCert_domain_eq hroot])
    have hroot1 : getCert (st1 ++ [p1]) "." = some c := by
      refine getCert_append_left ?_
      exact find?_filter_of_find? hroot (by simp [hco])
    have hold1 : getCert (st1 ++ [p1]) d = some p1 := getCert_append_singleton hnos p1 rfl
    have h2 := generateCert_leaf_ok_old hroot1 hold1 id2 t2 k2 cb2
    have hfilt : removeCertByID (st1 ++ [p1]) p1.id = st1 := by
      rw [removeCertByID, List.filter_append]
      have hs : (st1.filter fun x => x.id != p1.id) = st1 := by
        refine List.filter_eq_self.mpr fun x hx => ?_
        simp [hf1 x (hsub x hx)]
      simp [hs]
    rw [hfilt] at h2
    refine ⟨p1, st1 ++ [p1], p2, st1 ++ [p2], h1, h2, rfl, rfl, rfl,
      by simp [hp1, hp2, Ne.symm hne], ?_, by simp, rfl, by simp [hp2]; omega⟩
    have h0 : (st1.countP fun x => x.domain == d) = 0 :=
      List.countP_eq_zero.mpr fun x hx => by simp [hnos x hx]
    simp [List.countP_append, h0, List.countP_cons]

/-- C5 witness: a store with a root pair and an existing pair for
`example.com`; reissuing twice leaves exactly one pair for the domain,
carrying the second fresh id. -/
theorem c5_reissue_replaces_witness :
    ∃ p1 s1 p2 s2,
      generateCert [⟨1, ".", "rk", "rc", 0, 99⟩, ⟨2, "example.com", "ok", "oc", 1, 98⟩]
        "example.com" false 3 10 "k1" "cb1" = .ok (p1, s1)
      ∧ generateCert s1 "example.com" false 4 20 "k2" "cb2" = .ok (p2, s2)
      ∧ s1 = (match getCert [⟨1, ".", "rk", "rc", 0, 99⟩, ⟨2, "example.com", "ok", "oc", 1, 98⟩]
                "example.com" with
              | some o => removeCertByID
                  [⟨1, ".", "rk", "rc", 0, 99⟩, ⟨2, "example.com", "ok", "oc", 1, 98⟩] o.id
              | none => [⟨1, ".", "rk", "rc", 0, 99⟩, ⟨2, "example.com", "ok", "oc", 1, 98⟩])
            ++ [p1]
      ∧ p1.id = 3 ∧ p2.id = 4 ∧ p2.id ≠ p1.id
      ∧ (s2.countP fun x => x.domain == "example.com") = 1
      ∧ p2 ∈ s2 ∧ p2.domain = "example.com" ∧ 20 < p2.untilTs :=
  c5_reissue_replaces [⟨1, ".", "rk", "rc", 0, 99⟩, ⟨2, "example.com", "ok", "oc", 1, 98⟩]
    "example.com" ⟨1, ".", "rk", "rc", 0, 99⟩ 3 10 4 20 "k1" "cb1" "k2" "cb2"
    (by decide) (by decide) (by decide) (by decide) (by decide) (by decide)

/-! ## C1: ownership-gated issuance -/

theorem any_insertTs (r : Record) (l : List Record) (p : Record → Bool) :
    (insertTs r l).any p = (p r || l.any p) := by
  induction l with
  | nil => simp [insertTs]
  | cons x xs ih =>
    rw [insertTs]
    by_cases h : r.timestamp ≤ x.timestamp
    · simp [h]
    · rw [if_neg h]
      simp only [List.any_cons, ih]
      cases p r <;> cases p x <;> simp

theorem any_sortTs (l : List Record) (p : Record → Bool) :
    (sortTs l).any p = l.any p := by
  induction l with
  | nil => rfl
  | cons x xs ih => rw [sortTs, any_insertTs, ih, List.any_cons]

theorem tails_any_isEmpty {α : Type} (t : List α) :
    (List.tails t).any (fun x => x.isEmpty) = true := by
  induction t with
  | nil => rfl
  | cons a t ih => simp [List.tails_cons, ih]

/-- Any string of the reserved shape `-.<rest>` satisfies the
`name LIKE '-.%'` filter of `findByOwner`. -/
theorem likeMatch_ownPat (t : List Char) :
    likeMatch "-.%".data ('-' :: '.' :: t) = true := by
  show ((List.tails t).any fun x => x.isEmpty) = true
  exact tails_any_isEmpty t

/-- The ownership check the spec prescribes over `findByOwner`'s result set
coincides with directly scanning the record store for a TXT ownership record
of the domain's 2nd-level base. -/
theorem gating_eq_hasOwnership (records : List Record) (owner domain : String) :
    ((findByOwner records owner).any fun r => r.name == ownershipName domain)
      = hasOwnership records owner domain := by
  rw [findByOwner, any_sortTs, hasOwnership]
  rw [Bool.eq_iff_iff]
  simp only [List.any_eq_true, List.mem_filter]
  constructor
  · rintro ⟨r, ⟨hr, hf⟩, hn⟩
    refine ⟨r, hr, ?_⟩
    rw [Bool.and_eq_true] at hf
    rw [Bool.and_eq_true] at hf
    simp only [hf.1.2, hf.2, hn, Bool.and_self]
  · rintro ⟨r, hr, hprops⟩
    rw [Bool.and_eq_true, Bool.and_eq_true] at hprops
    obtain ⟨⟨hty, hval⟩, hn⟩ := hprops
    refine ⟨r, ⟨hr, ?_⟩, hn⟩
    have hname : r.name = ownershipName domain := by simpa using hn
    have hdata : r.name.data = '-' :: '.' :: (base2 domain).data := by
      rw [hname]
      rfl
    rw [hdata, likeMatch_ownPat, hty, hval]
    rfl

/-- C1: with a root CA present, ownership-gated issuance with an owner proof
that does not match any TXT ownership record for the domain's 2nd-level base
fails with the authorization error, and issuance with a matching proof
succeeds. -/
theorem c1_ownership_gating (records : List Record) (certs : List CertPair)
    (domain owner : String) (id now : Nat) (k cb : String) (c : CertPair)
    (hroot : getCert certs "." = some c) :
    (hasOwnership records owner domain = false →
      issueCertificate records certs domain (some owner) id now k cb = .error .authorization)
    ∧ (hasOwnership records owner domain = true →
      ∃ pr s', issueCertificate records certs domain (some owner) id now k cb = .ok (pr, s')) := by
  constructor
  · intro h
    simp only [issueCertificate, gating_eq_hasOwnership, h, Bool.false_eq_true, if_false]
  · intro h
    simp only [issueCertificate, gating_eq_hasOwnership, h, if_true]
    exact ⟨_, _, generateCert_leaf_ok hroot domain id now k cb⟩

/-- C1 witness: with the ownership record `-.example.com = "me"` stored,
issuance of `a.example.com` for owner `"other"` is rejected with the
authorization error and issuance for owner `"me"` succeeds. -/
theorem c1_ownership_gating_witness :
    issueCertificate [⟨0, "-.example.com", .TXT, 60, "me", 0⟩] [⟨9, ".", "rk", "rc", 0, 99⟩]
      "a.example.com" (some "other") 1 10 "k" "cb" = .error .authorization
    ∧ ∃ pr s', issueCertificate [⟨0, "-.example.com", .TXT, 60, "me", 0⟩]
        [⟨9, ".", "rk", "rc", 0, 99⟩] "a.example.com" (some "me") 1 10 "k" "cb" = .ok (pr, s') :=
  ⟨(c1_ownership_gating [⟨0, "-.example.com", .TXT, 60, "me", 0⟩] [⟨9, ".", "rk", "rc", 0, 99⟩]
      "a.example.com" "other" 1 10 "k" "cb" ⟨9, ".", "rk", "rc", 0, 99⟩ (by decide)).1 (by decide),
   (c1_ownership_gating [⟨0, "-.example.com", .TXT, 60, "me", 0⟩] [⟨9, ".", "rk", "rc", 0, 99⟩]
      "a.example.com" "me" 1 10 "k" "cb" ⟨9, ".", "rk", "rc", 0, 99⟩ (by decide)).2 (by decide)⟩

/-! ## C8: locally built answers -/

theorem insertTs_of_le (r : Record) (l : List Record)
    (h : ∀ x ∈ l, r.timestamp ≤ x.timestamp) : insertTs r l = r :: l := by
  cases l with
  | nil => rfl
  | cons x xs => rw [insertTs, if_pos (h x (List.mem_cons_self x xs))]

theorem sortTs_eq_self {l : List Record}
    (h : l.Pairwise fun a b => a.timestamp ≤ b.timestamp) : sortTs l = l := by
  induction l with
  | nil => rfl
  | cons x xs ih =>
    rw [List.pairwise_cons] at h
    rw [sortTs, ih h.2, insertTs_of_le x xs h.1]

/-- C8: when the proxy scan found no rule and at least one local record
matches, the response is built from the matching records in store (insertion)
order — one answer per record, provided the store's timestamps are ascending,
as produced by insertions stamped with a non-decreasing clock — and each
answer preserves its record's ttl and carries the type-directed payload:
the target domain for CNAME, the stored string for TXT, and the stored value
string verbatim for A/AAAA. -/
theorem c8_local_answers (jm : String → String → Option Bool)
    (pa : String → String → List DnsAnswer) (da : String → List DnsAnswer)
    (rules : List ProxyRule) (store : List Record) (name : String)
    (hp : getProxyDNS jm rules name = .ok none)
    (hsorted : store.Pairwise fun a b => a.timestamp ≤ b.timestamp)
    (hne : store.filter (recMatches name) ≠ []) :
    handle jm pa da rules store name
      = .ok ((store.filter (recMatches name)).map recordToAnswer)
    ∧ ∀ r : Record,
        (recordToAnswer r).lookup "ttl" = some (AVal.num r.ttl)
        ∧ (r.type = RecordType.CNAME →
            (recordToAnswer r).lookup "domain" = some (AVal.str r.value))
        ∧ (r.type = RecordType.TXT →
            (recordToAnswer r).lookup "data" = some (AVal.str r.value))
        ∧ ((r.type = RecordType.A ∨ r.type = RecordType.AAAA) →
            (recordToAnswer r).lookup "address" = some (AVal.str r.value)) := by
  constructor
  · have hg : getRecords store name = store.filter (recMatches name) := by
      rw [getRecords, sortTs_eq_self (hsorted.filter (recMatches name))]
    have hlen : 0 < (store.filter (recMatches name)).length := List.length_pos.mpr hne
    simp only [handle, hp, hg]
    rw [if_pos hlen]
  · intro r
    cases r with
    | mk i n ty t v ts =>
      cases ty <;> refine ⟨rfl, ?_, ?_, ?_⟩ <;> intro h <;>
        first
          | rfl
          | nomatch h

/-- C8 witness: one A and one CNAME record for the same name, stored in
insertion order; both are answered in order with their payloads and ttls. -/
theorem c8_local_answers_witness :
    handle (fun _ _ => some false) (fun a n => [[("proxy", AVal.str a), ("q", AVal.str n)]])
      (fun _ => [[("def", AVal.num 0)]]) []
      [⟨1, "a.example.com", .A, 60, "10.0.0.1", 5⟩, ⟨2, "a.example.com", .CNAME, 90, "t.example.net", 7⟩]
      "a.example.com"
      = .ok (([⟨1, "a.example.com", .A, 60, "10.0.0.1", 5⟩,
              ⟨2, "a.example.com", .CNAME, 90, "t.example.net", 7⟩].filter
                (recMatches "a.example.com")).map recordToAnswer)
    ∧ ∀ r : Record,
        (recordToAnswer r).lookup "ttl" = some (AVal.num r.ttl)
        ∧ (r.type = RecordType.CNAME →
            (recordToAnswer r).lookup "domain" = some (AVal.str r.value))
        ∧ (r.type = RecordType.TXT →
            (recordToAnswer r).lookup "data" = some (AVal.str r.value))
        ∧ ((r.type = RecordType.A ∨ r.type = RecordType.AAAA) →
            (recordToAnswer r).lookup "address" = some (AVal.str r.value)) :=
  c8_local_answers (fun _ _ => some false)
    (fun a n => [[("proxy", AVal.str a), ("q", AVal.str n)]]) (fun _ => [[("def", AVal.num 0)]])
    [] [⟨1, "a.example.com", .A, 60, "10.0.0.1", 5⟩,
        ⟨2, "a.example.com", .CNAME, 90, "t.example.net", 7⟩] "a.example.com"
    (by decide) (by decide) (by decide)

/-! ## C3: wildcard matching (corrected)

The SQL LIKE condition of `getRecords` does not implement pure per-label
wildcard matching: besides `*` (sent to LIKE's `%`), the LIKE metacharacters
`_` (any single character), `%` and the escape `\` occurring verbatim in a
stored name keep their LIKE meaning.  The per-label reading is proved for
names whose labels are either exactly `*` or free of those metacharacters. -/

/-- A pattern label free of the SQL LIKE metacharacters and of `*`. -/
def metaFree (l : List Char) : Prop :=
  '%' ∉ l ∧ '_' ∉ l ∧ '\\' ∉ l ∧ '*' ∉ l

instance (l : List Char) : Decidable (metaFree l) := by
  unfold metaFree
  infer_instance

/-- The spec's per-label wildcard match of a stored pattern name against a
query name: corresponding labels (equal label counts are required separately)
are either the one-label wildcard `*` or equal case-insensitively. -/
def specLabelsMatch (p q : String) : Prop :=
  List.Forall₂ (fun a b => a = ['*'] ∨ lowerChars a = lowerChars b)
    (splitOnDot p.data) (splitOnDot q.data)

instance (p q : String) : Decidable (specLabelsMatch p q) := by
  unfold specLabelsMatch
  infer_instance

theorem splitOnDot_ne_nil (s : List Char) : splitOnDot s ≠ [] := by
  cases s with
  | nil => simp [splitOnDot]
  | cons c rest =>
    simp only [splitOnDot]
    split
    · simp
    · cases h : splitOnDot rest <;> simp

theorem dotFree_splitOnDot (s : List Char) : ∀ l ∈ splitOnDot s, '.' ∉ l := by
  induction s with
  | nil =>
    intro l hl
    simp only [splitOnDot, List.mem_singleton] at hl
    subst hl
    simp
  | cons c rest ih =>
    intro l hl
    simp only [splitOnDot] at hl
    by_cases hc : c = '.'
    · rw [if_pos hc] at hl
      rcases List.mem_cons.mp hl with h | h
      · subst h; simp
      · exact ih l h
    · rw [if_neg hc] at hl
      cases hsp : splitOnDot rest with
      | nil => exact absurd hsp (splitOnDot_ne_nil rest)
      | cons g gs =>
        rw [hsp] at hl
        rcases List.mem_cons.mp hl with h | h
        · subst h
          intro hmem
          rcases List.mem_cons.mp hmem with h' | h'
          · exact hc h'.symm
          · exact ih g (by rw [hsp]; exact List.mem_cons_self g gs) h'
        · exact ih l (by rw [hsp]; exact List.mem_cons_of_mem g h)

theorem joinDots_splitOnDot (s : List Char) : joinDots (splitOnDot s) = s := by
  induction s with
  | nil => rfl
  | cons c rest ih =>
    simp only [splitOnDot]
    by_cases hc : c = '.'
    · rw [if_pos hc, hc]
      cases hsp : splitOnDot rest with
      | nil => exact absurd hsp (splitOnDot_ne_nil rest)
      | cons g gs =>
        rw [hsp] at ih
        show [] ++ '.' :: joinDots (g :: gs) = '.' :: rest
        rw [List.nil_append, ih]
    · rw [if_neg hc]
      cases hsp : splitOnDot rest with
      | nil => exact absurd hsp (splitOnDot_ne_nil rest)
      | cons g gs =>
        rw [hsp] at ih
        cases gs with
        | nil =>
          show c :: g = c :: rest
          rw [show joinDots [g] = g from rfl] at ih
          rw [ih]
        | cons g2 gs2 =>
          show (c :: g) ++ '.' :: joinDots (g2 :: gs2) = c :: rest
          rw [show joinDots (g :: g2 :: gs2) = g ++ '.' :: joinDots (g2 :: gs2) from rfl] at ih
          rw [List.cons_append, ih]

theorem splitOnDot_dotFree {l : List Char} (h : '.' ∉ l) : splitOnDot l = [l] := by
  induction l with
  | nil => rfl
  | cons c t ih =>
    have hc : c ≠ '.' := fun hc => h (hc ▸ List.mem_cons_self c t)
    simp only [splitOnDot, if_neg hc]
    rw [ih fun hm => h (List.mem_cons_of_mem c hm)]

theorem splitOnDot_append_dot {l : List Char} (t : List Char) (h : '.' ∉ l) :
    splitOnDot (l ++ '.' :: t) = l :: splitOnDot t := by
  induction l with
  | nil => simp [splitOnDot]
  | cons c l' ih =>
    have hc : c ≠ '.' := fun hc => h (hc ▸ List.mem_cons_self c l')
    simp only [List.cons_append, splitOnDot, if_neg hc]
    rw [List.append_eq, ih fun hm => h (List.mem_cons_of_mem c hm)]

theorem length_splitOnDot (s : List Char) : (splitOnDot s).length = s.count '.' + 1 := by
  induction s with
  | nil => rfl
  | cons c rest ih =>
    simp only [splitOnDot]
    by_cases hc : c = '.'
    · rw [if_pos hc]
      simp [List.count_cons, hc, ih]
    · rw [if_neg hc]
      cases hsp : splitOnDot rest with
      | nil => exact absurd hsp (splitOnDot_ne_nil rest)
      | cons g gs =>
        rw [hsp] at ih
        simp only [List.length_cons] at ih ⊢
        have hcc : ('.' : Char) ≠ c := fun hcc => hc hcc.symm
        simp [List.count_cons, hcc, ih]

theorem toLower_eq_dot_iff (c : Char) : c.toLower = '.' ↔ c = '.' := by
  constructor
  · intro h
    rw [Char.toLower] at h
    split at h
    · rename_i hcond
      exfalso
      have hval : (c.toNat + 32).isValidChar := Or.inl (by omega)
      have h46 : (Char.ofNat (c.toNat + 32)).toNat = c.toNat + 32 := by
        rw [Char.ofNat, dif_pos hval]
        rfl
      have hdot : ('.' : Char).toNat = 46 := rfl
      have := congrArg Char.toNat h
      rw [h46, hdot] at this
      omega
    · exact h
  · intro h
    subst h
    decide

theorem mem_tails_iff_exists {α : Type} (t s : List α) :
    t ∈ List.tails s ↔ ∃ u, s = u ++ t := by
  induction s with
  | nil =>
    rw [show List.tails ([] : List α) = [[]] from rfl]
    simp only [List.mem_singleton]
    constructor
    · rintro rfl; exact ⟨[], rfl⟩
    · rintro ⟨u, hu⟩
      rw [eq_comm, List.append_eq_nil] at hu
      exact hu.2
  | cons a s ih =>
    rw [show List.tails (a :: s) = (a :: s) :: List.tails s from rfl]
    simp only [List.mem_cons, ih]
    constructor
    · rintro (rfl | ⟨u, rfl⟩)
      · exact ⟨[], rfl⟩
      · exact ⟨a :: u, rfl⟩
    · rintro ⟨u, hu⟩
      cases u with
      | nil => exact Or.inl hu.symm
      | cons x u' =>
        rw [List.cons_append] at hu
        injection hu with h1 h2
        exact Or.inr ⟨u', h2⟩

/-- The one-step equation of `likeMatch` on a cons pattern.  (The automatic
equation lemmas for `likeMatch` are too large; this definitional version is
what the proofs below rewrite with.) -/
theorem likeMatch_cons_eq (c : Char) (ps s : List Char) :
    likeMatch (c :: ps) s =
      if c = '%' then (List.tails s).any fun t => likeMatch ps t
      else if c = '_' then
        match s with
        | [] => false
        | _ :: s' => likeMatch ps s'
      else if c = '\\' then likeMatchEsc ps s
      else
        match s with
        | [] => false
        | c' :: s' => (c == c') && likeMatch ps s' := rfl

/-- Decomposing a `%` at the head of a LIKE pattern. -/
theorem likeMatch_pct (ps s : List Char) :
    likeMatch ('%' :: ps) s = true ↔ ∃ u v, s = u ++ v ∧ likeMatch ps v = true := by
  rw [likeMatch_cons_eq, if_pos rfl, List.any_eq_true]
  constructor
  · rintro ⟨t, ht, hm⟩
    obtain ⟨u, rfl⟩ := (mem_tails_iff_exists t s).mp ht
    exact ⟨u, t, rfl, hm⟩
  · rintro ⟨u, v, rfl, hm⟩
    exact ⟨v, (mem_tails_iff_exists v (u ++ v)).mpr ⟨u, rfl⟩, hm⟩

/-- Decomposing a literal character at the head of a LIKE pattern. -/
theorem likeMatch_lit {c : Char} (hc1 : c ≠ '%') (hc2 : c ≠ '_') (hc3 : c ≠ '\\')
    (ps s : List Char) :
    likeMatch (c :: ps) s = true ↔ ∃ s', s = c :: s' ∧ likeMatch ps s' = true := by
  rw [likeMatch_cons_eq, if_neg hc1, if_neg hc2, if_neg hc3]
  cases s with
  | nil => simp
  | cons c' s' =>
    simp only [Bool.and_eq_true, beq_iff_eq]
    constructor
    · rintro ⟨rfl, h⟩
      exact ⟨s', rfl, h⟩
    · rintro ⟨s'', h, hm⟩
      injection h with h1 h2
      subst h1
      subst h2
      exact ⟨rfl, hm⟩

/-- Decomposing a leading run of literal characters of a LIKE pattern. -/
theorem likeMatch_chunk {l : List Char} (hl : ∀ c ∈ l, c ≠ '%' ∧ c ≠ '_' ∧ c ≠ '\\')
    (ps s : List Char) :
    likeMatch (l ++ ps) s = true ↔ ∃ s', s = l ++ s' ∧ likeMatch ps s' = true := by
  induction l generalizing s with
  | nil => simp
  | cons c l' ih =>
    obtain ⟨hc1, hc2, hc3⟩ := hl c (List.mem_cons_self c l')
    have hl' := fun x hx => hl x (List.mem_cons_of_mem c hx)
    rw [List.cons_append, likeMatch_lit hc1 hc2 hc3]
    constructor
    · rintro ⟨s', rfl, hm⟩
      obtain ⟨s'', rfl, hm'⟩ := (ih hl' s').mp hm
      exact ⟨s'', rfl, hm'⟩
    · rintro ⟨s'', rfl, hm⟩
      exact ⟨l' ++ s'', rfl, (ih hl' (l' ++ s'')).mpr ⟨s'', rfl, hm⟩⟩

theorem map_star2pct_eq_self {l : List Char} (h : '*' ∉ l) : l.map star2pct = l := by
  induction l with
  | nil => rfl
  | cons c t ih =>
    have hc : c ≠ '*' := fun hc => h (hc ▸ List.mem_cons_self c t)
    rw [List.map_cons, star2pct, if_neg hc, ih fun hm => h (List.mem_cons_of_mem c hm)]

theorem metaFree_cond {l : List Char} (h : metaFree l) :
    ∀ c ∈ l, c ≠ '%' ∧ c ≠ '_' ∧ c ≠ '\\' := by
  obtain ⟨h1, h2, h3, _⟩ := h
  intro c hc
  exact ⟨fun e => h1 (e ▸ hc), fun e => h2 (e ▸ hc), fun e => h3 (e ▸ hc)⟩

theorem map_eq_self_mem {α : Type} {f : α → α} {l : List α} (h : l.map f = l) :
    ∀ x ∈ l, f x = x := by
  induction l with
  | nil => simp
  | cons a t ih =>
    rw [List.map_cons] at h
    injection h with h1 h2
    intro x hx
    rcases List.mem_cons.mp hx with rfl | hx'
    · exact h1
    · exact ih h2 x hx'

theorem joinDots_cons_cons (l l2 : List Char) (ls : List (List Char)) :
    joinDots (l :: l2 :: ls) = l ++ '.' :: joinDots (l2 :: ls) := rfl

/-- Lower bound: a clean label pattern can only match a string with at least
as many labels, because every literal separator dot consumes a dot. -/
theorem count_ge_of_likeMatch (ls : List (List Char)) :
    ∀ (s : List Char), (∀ l ∈ ls, ('.' ∉ l) ∧ (l = ['*'] ∨ metaFree l)) →
    likeMatch ((joinDots ls).map star2pct) s = true →
    ls.length ≤ s.count '.' + 1 := by
  induction ls with
  | nil => intro s _ _; simp
  | cons l ls' ih =>
    intro s hclean hm
    cases ls' with
    | nil => simp
    | cons l2 ls'' =>
      obtain ⟨hdot, hform⟩ := hclean l (List.mem_cons_self l (l2 :: ls''))
      have hclean' := fun x hx => hclean x (List.mem_cons_of_mem l hx)
      rw [joinDots_cons_cons, List.map_append, List.map_cons,
        show star2pct '.' = '.' from rfl] at hm
      rcases hform with heq | hmf
      · subst heq
        rw [show (['*'].map star2pct) = ['%'] from rfl, List.cons_append, List.nil_append] at hm
        obtain ⟨u, v, rfl, hv⟩ := (likeMatch_pct _ _).mp hm
        obtain ⟨v', rfl, hv'⟩ := (likeMatch_lit (by decide) (by decide) (by decide) _ _).mp hv
        have hih := ih ('.' :: v').tail hclean' (by simpa using hv')
        simp only [List.count_append, List.count_cons, List.length_cons, List.tail_cons,
          beq_self_eq_true, if_true] at *
        omega
      · rw [map_star2pct_eq_self hmf.2.2.2] at hm
        obtain ⟨s1, rfl, hs1⟩ := (likeMatch_chunk (metaFree_cond hmf) _ _).mp hm
        obtain ⟨s2, rfl, hs2⟩ := (likeMatch_lit (by decide) (by decide) (by decide) _ _).mp hs1
        have hih := ih s2 hclean' hs2
        have hc0 : l.count '.' = 0 := List.count_eq_zero.mpr hdot
        simp only [List.count_append, List.count_cons, List.length_cons,
          beq_self_eq_true, if_true, hc0] at *
        omega

/-- Aligning two dot-separated decompositions with dot-free first labels. -/
theorem append_dot_inj {a : List Char} : ∀ {b x y : List Char}, '.' ∉ a → '.' ∉ b →
    a ++ '.' :: x = b ++ '.' :: y → a = b ∧ x = y := by
  induction a with
  | nil =>
    intro b x y _ hb h
    cases b with
    | nil =>
      rw [List.nil_append, List.nil_append] at h
      injection h with _ h2
      exact ⟨rfl, h2⟩
    | cons c b' =>
      rw [List.nil_append, List.cons_append] at h
      injection h with h1 _
      exact absurd (h1 ▸ List.mem_cons_self c b') hb
  | cons c a' ih =>
    intro b x y ha hb h
    cases b with
    | nil =>
      rw [List.cons_append, List.nil_append] at h
      injection h with h1 _
      exact absurd (h1 ▸ List.mem_cons_self c a') ha
    | cons d b' =>
      rw [List.cons_append, List.cons_append] at h
      injection h with h1 h2
      have ha' : '.' ∉ a' := fun hm => ha (List.mem_cons_of_mem c hm)
      have hb' : '.' ∉ b' := fun hm => hb (List.mem_cons_of_mem d hm)
      obtain ⟨he, hx⟩ := ih ha' hb' h2
      subst h1
      rw [he]
      exact ⟨rfl, hx⟩

/-- Where a `%`-absorbed split can land relative to the first dot. -/
theorem append_dot_cases {m : List Char} : ∀ {restS u v' : List Char}, '.' ∉ m →
    m ++ '.' :: restS = u ++ '.' :: v' →
    (u = m ∧ v' = restS) ∨ (∃ w, u = m ++ '.' :: w ∧ restS = w ++ '.' :: v') := by
  induction m with
  | nil =>
    intro restS u v' _ h
    cases u with
    | nil =>
      rw [List.nil_append, List.nil_append] at h
      injection h with _ h2
      exact Or.inl ⟨rfl, h2.symm⟩
    | cons x u' =>
      rw [List.nil_append, List.cons_append] at h
      injection h with h1 h2
      exact Or.inr ⟨u', by rw [List.nil_append, ← h1], h2⟩
  | cons c m' ih =>
    intro restS u v' hm h
    cases u with
    | nil =>
      rw [List.cons_append, List.nil_append] at h
      injection h with h1 _
      exact absurd (h1 ▸ List.mem_cons_self c m') hm
    | cons x u' =>
      rw [List.cons_append, List.cons_append] at h
      injection h with h1 h2
      have hm' : '.' ∉ m' := fun hmm => hm (List.mem_cons_of_mem c hmm)
      subst h1
      rcases ih hm' h2 with ⟨h3, h4⟩ | ⟨w, h3, h4⟩
      · exact Or.inl ⟨by rw [h3], h4⟩
      · exact Or.inr ⟨w, by rw [List.cons_append, h3], h4⟩

theorem count_joinDots : ∀ {ms : List (List Char)}, (∀ m ∈ ms, '.' ∉ m) → ms ≠ [] →
    (joinDots ms).count '.' = ms.length - 1 := by
  intro ms
  induction ms with
  | nil => intro _ hne; cases hne rfl
  | cons m ms' ih =>
    intro hdot _
    cases ms' with
    | nil =>
      simp [show joinDots [m] = m from rfl,
        List.count_eq_zero.mpr (hdot m (List.mem_cons_self m []))]
    | cons m2 ms'' =>
      rw [joinDots_cons_cons]
      have hih := ih (fun x hx => hdot x (List.mem_cons_of_mem m hx)) (by simp)
      have hc0 : m.count '.' = 0 :=
        List.count_eq_zero.mpr (hdot m (List.mem_cons_self m (m2 :: ms'')))
      simp only [List.count_append, List.count_cons, beq_self_eq_true, if_true, hc0,
        List.length_cons] at *
      omega

/-- The central equivalence: over label lists of equal length, with clean
pattern labels (each either `*` or metacharacter-free) and dot-free string
labels, the SQL LIKE match of the `*`-to-`%` pattern against the joined
string is exactly the per-label wildcard match. -/
theorem likeMatch_labels_iff (ls : List (List Char)) :
    ∀ (ms : List (List Char)), ls.length = ms.length →
    (∀ l ∈ ls, ('.' ∉ l) ∧ (l = ['*'] ∨ metaFree l)) →
    (∀ m ∈ ms, '.' ∉ m) →
    (likeMatch ((joinDots ls).map star2pct) (joinDots ms) = true
      ↔ List.Forall₂ (fun a b => a = ['*'] ∨ a = b) ls ms) := by
  induction ls with
  | nil =>
    intro ms hlen _ _
    cases ms with
    | nil =>
      constructor
      · intro _; exact List.Forall₂.nil
      · intro _; rfl
    | cons m ms' => simp at hlen
  | cons l ls' ih =>
    intro ms hlen hclean hdot
    cases ms with
    | nil => simp at hlen
    | cons m ms' =>
      obtain ⟨hldot, hlform⟩ := hclean l (List.mem_cons_self l ls')
      have hclean' := fun x hx => hclean x (List.mem_cons_of_mem l hx)
      have hmdot : '.' ∉ m := hdot m (List.mem_cons_self m ms')
      have hdot' := fun x hx => hdot x (List.mem_cons_of_mem m hx)
      have hlen' : ls'.length = ms'.length := by simpa using hlen
      cases ls' with
      | nil =>
        cases ms' with
        | cons m2 ms'' => simp at hlen'
        | nil =>
          rw [show joinDots [l] = l from rfl, show joinDots [m] = m from rfl]
          rcases hlform with heq | hmf
          · subst heq
            constructor
            · intro _
              exact List.Forall₂.cons (Or.inl rfl) List.Forall₂.nil
            · intro _
              rw [show (['*'].map star2pct) = ['%'] from rfl]
              show ((List.tails m).any fun x => x.isEmpty) = true
              exact tails_any_isEmpty m
          · rw [map_star2pct_eq_self hmf.2.2.2]
            have hch := likeMatch_chunk (metaFree_cond hmf) [] m
            rw [List.append_nil] at hch
            rw [hch]
            constructor
            · rintro ⟨s', rfl, hs⟩
              have hnil : s' = [] := by
                have hs' : s'.isEmpty = true := hs
                simpa using hs'
              subst hnil
              rw [List.append_nil]
              exact List.Forall₂.cons (Or.inr rfl) List.Forall₂.nil
            · intro hf
              rcases List.forall₂_cons.mp hf with ⟨hhead, _⟩
              rcases hhead with heq | heq
              · exact absurd (by rw [heq]; exact List.mem_singleton_self '*') hmf.2.2.2
              · exact ⟨[], by rw [heq, List.append_nil], rfl⟩
      | cons l2 ls'' =>
        cases ms' with
        | nil => simp at hlen'
        | cons m2 ms'' =>
          rw [joinDots_cons_cons, joinDots_cons_cons, List.map_append, List.map_cons,
            show star2pct '.' = '.' from rfl]
          have hihtail := ih (m2 :: ms'') hlen' hclean' hdot'
          rcases hlform with heq | hmf
          · subst heq
            rw [show (['*'].map star2pct) = ['%'] from rfl, List.cons_append, List.nil_append]
            constructor
            · intro hm
              obtain ⟨u, v, hs, hv⟩ := (likeMatch_pct _ _).mp hm
              obtain ⟨v', rfl, hv'⟩ :=
                (likeMatch_lit (by decide) (by decide) (by decide) _ _).mp hv
              rcases append_dot_cases hmdot hs with ⟨hu, hveq⟩ | ⟨w, hu, hJ⟩
              · rw [hveq] at hv'
                exact List.Forall₂.cons (Or.inl rfl) ((hihtail).mp hv')
              · exfalso
                have hlow := count_ge_of_likeMatch (l2 :: ls'') v' hclean' hv'
                have hcnt := count_joinDots hdot' (by simp)
                rw [hJ] at hcnt
                simp only [List.count_append, List.count_cons, List.length_cons,
                  beq_self_eq_true, if_true] at *
                omega
            · intro hf
              rcases List.forall₂_cons.mp hf with ⟨_, htail⟩
              have hv' := hihtail.mpr htail
              exact (likeMatch_pct _ _).mpr
                ⟨m, '.' :: joinDots (m2 :: ms''), rfl,
                  (likeMatch_lit (by decide) (by decide) (by decide) _ _).mpr
                    ⟨joinDots (m2 :: ms''), rfl, hv'⟩⟩
          · rw [map_star2pct_eq_self hmf.2.2.2]
            rw [likeMatch_chunk (metaFree_cond hmf)]
            constructor
            · rintro ⟨s1, hs1, hm1⟩
              obtain ⟨s2, rfl, hm2⟩ :=
                (likeMatch_lit (by decide) (by decide) (by decide) _ _).mp hm1
              obtain ⟨hme, hJe⟩ := append_dot_inj hmdot hldot hs1
              rw [← hJe] at hm2
              exact List.Forall₂.cons (Or.inr hme.symm) (hihtail.mp hm2)
            · intro hf
              rcases List.forall₂_cons.mp hf with ⟨hhead, htail⟩
              have hle : l = m := by
                rcases hhead with heq | heq
                · exact absurd (by rw [heq]; exact List.mem_singleton_self '*') hmf.2.2.2
                · exact heq
              refine ⟨'.' :: joinDots (m2 :: ms''), by rw [hle], ?_⟩
              exact (likeMatch_lit (by decide) (by decide) (by decide) _ _).mpr
                ⟨joinDots (m2 :: ms''), rfl, hihtail.mpr htail⟩

theorem splitOnDot_lowerChars (s : List Char) :
    splitOnDot (lowerChars s) = (splitOnDot s).map lowerChars := by
  have hdotlow : ('.' : Char).toLower = '.' := by decide
  have hdotsplit : ∀ t : List Char, splitOnDot ('.' :: t) = [] :: splitOnDot t := by
    intro t
    simp [splitOnDot]
  induction s with
  | nil => rfl
  | cons c rest ih =>
    by_cases hc : c = '.'
    · subst hc
      rw [show lowerChars ('.' :: rest) = Char.toLower '.' :: lowerChars rest from rfl,
        hdotlow, hdotsplit, hdotsplit, ih, List.map_cons]
      rfl
    · have hcl : c.toLower ≠ '.' := fun h => hc ((toLower_eq_dot_iff c).mp h)
      rw [show lowerChars (c :: rest) = c.toLower :: lowerChars rest from rfl]
      simp only [splitOnDot, if_neg hc, if_neg hcl, ih]
      cases hsp : splitOnDot rest with
      | nil => exact absurd hsp (splitOnDot_ne_nil rest)
      | cons g gs => simp [lowerChars]

theorem mem_insertTs {a r : Record} {l : List Record} :
    a ∈ insertTs r l ↔ a = r ∨ a ∈ l := by
  induction l with
  | nil => simp [insertTs]
  | cons x xs ih =>
    rw [insertTs]
    by_cases h : r.timestamp ≤ x.timestamp
    · simp [h]
    · rw [if_neg h]
      simp only [List.mem_cons, ih]
      tauto

theorem mem_sortTs {a : Record} {l : List Record} : a ∈ sortTs l ↔ a ∈ l := by
  induction l with
  | nil => exact Iff.rfl
  | cons x xs ih =>
    rw [sortTs, mem_insertTs]
    simp [ih]

theorem labelCountEqB_iff {p q : String} (hp : p ≠ "") (hq : q ≠ "") :
    labelCountEqB p q = true
      ↔ (splitOnDot p.data).length = (splitOnDot q.data).length := by
  have hpd : p.data ≠ [] := fun h => hp (String.ext h)
  have hqd : q.data ≠ [] := fun h => hq (String.ext h)
  rw [labelCountEqB, labelCount, labelCount, if_neg hpd, if_neg hqd]
  simp

/-- For a stored-lowercase pattern name, the spec's case-insensitive label
match equals the plain label match against the lowered query labels. -/
theorem spec_iff_lower {p q : String} (hlow : lowerChars p.data = p.data) :
    specLabelsMatch p q ↔
      List.Forall₂ (fun a b => a = ['*'] ∨ a = b)
        (splitOnDot p.data) (splitOnDot (lowerChars q.data)) := by
  have hlabels : ∀ a ∈ splitOnDot p.data, lowerChars a = a := by
    refine map_eq_self_mem ?_
    rw [← splitOnDot_lowerChars, hlow]
  rw [specLabelsMatch, splitOnDot_lowerChars, List.forall₂_map_right_iff,
    List.forall₂_iff_zip, List.forall₂_iff_zip]
  constructor
  · rintro ⟨h1, h2⟩
    refine ⟨h1, ?_⟩
    intro a b hab
    rcases h2 hab with heq | heq
    · exact Or.inl heq
    · exact Or.inr ((hlabels a (List.of_mem_zip hab).1).symm.trans heq)
  · rintro ⟨h1, h2⟩
    refine ⟨h1, ?_⟩
    intro a b hab
    rcases h2 hab with heq | heq
    · exact Or.inl heq
    · exact Or.inr ((hlabels a (List.of_mem_zip hab).1).trans heq)

/-- C3 as amended: for a stored record whose (lowercase, as `pushRecord`
stores it) name has only labels that are either exactly `*` or free of the
SQL LIKE metacharacters `%`, `_`, `\` and of `*`, and for nonempty name and
query, `getRecords` includes the record iff the label counts agree and every
non-`*` label of the pattern equals the corresponding query label
case-insensitively (each `*` matching exactly one label). -/
theorem c3_wildcard_match (store : List Record) (r : Record) (q : String)
    (hr : r ∈ store) (hn : r.name ≠ "") (hq : q ≠ "")
    (hlow : lowerChars r.name.data = r.name.data)
    (hclean : ∀ l ∈ splitOnDot r.name.data, l = ['*'] ∨ metaFree l) :
    (r ∈ getRecords store q ↔
      ((splitOnDot r.name.data).length = (splitOnDot q.data).length
        ∧ specLabelsMatch r.name q)) := by
  have hmem : r ∈ getRecords store q ↔ recMatches q r = true := by
    rw [getRecords, mem_sortTs, List.mem_filter]
    exact ⟨fun h => h.2, fun h => ⟨hr, h⟩⟩
  rw [hmem, recMatches, Bool.and_eq_true, labelCountEqB_iff hn hq]
  by_cases hcnt : (splitOnDot r.name.data).length = (splitOnDot q.data).length
  · have hcnt' : (splitOnDot r.name.data).length
        = (splitOnDot (lowerChars q.data)).length := by
      rw [splitOnDot_lowerChars, List.length_map]
      exact hcnt
    have hclean2 : ∀ l ∈ splitOnDot r.name.data, ('.' ∉ l) ∧ (l = ['*'] ∨ metaFree l) :=
      fun l hl => ⟨dotFree_splitOnDot r.name.data l hl, hclean l hl⟩
    have hmain := likeMatch_labels_iff (splitOnDot r.name.data)
      (splitOnDot (lowerChars q.data)) hcnt' hclean2
      (dotFree_splitOnDot (lowerChars q.data))
    rw [joinDots_splitOnDot, joinDots_splitOnDot] at hmain
    rw [show sqlLikePattern r.name = r.name.data.map star2pct from rfl]
    constructor
    · rintro ⟨hlike, _⟩
      exact ⟨hcnt, (spec_iff_lower hlow).mpr (hmain.mp hlike)⟩
    · rintro ⟨_, hspec⟩
      exact ⟨hmain.mpr ((spec_iff_lower hlow).mp hspec), hcnt⟩
  · simp [hcnt]

/-- C3 counterexample: the claim's per-label reading fails on the code.  The
stored name `a_c` (an underscore is an ordinary DNS-name character, as in
`_acme-challenge` names) has equal label count with the query `abc` and its
single non-wildcard label differs from the query's label, so by the claim
the record must not be included — but SQL LIKE's `_` matches any single
character and `getRecords` returns it. -/
theorem c3_counterexample :
    ((⟨7, "a_c", .A, 60, "1.2.3.4", 0⟩ : Record)
        ∈ getRecords [⟨7, "a_c", .A, 60, "1.2.3.4", 0⟩] "abc")
    ∧ (splitOnDot "a_c".data).length = (splitOnDot "abc".data).length
    ∧ ¬ specLabelsMatch "a_c" "abc" := by
  refine ⟨?_, ?_, ?_⟩ <;> decide

/-- C3 witness: the wildcard record `*.example.com` and query
`x.Example.com`: per-label matching agrees with inclusion. -/
theorem c3_wildcard_match_witness :
    ((⟨3, "*.example.com", .CNAME, 60, "t.example.net", 0⟩ : Record)
        ∈ getRecords [⟨3, "*.example.com", .CNAME, 60, "t.example.net", 0⟩] "x.Example.com")
    ↔ ((splitOnDot "*.example.com".data).length = (splitOnDot "x.Example.com".data).length
        ∧ specLabelsMatch "*.example.com" "x.Example.com") :=
  c3_wildcard_match [⟨3, "*.example.com", .CNAME, 60, "t.example.net", 0⟩]
    ⟨3, "*.example.com", .CNAME, 60, "t.example.net", 0⟩ "x.Example.com"
    (by decide) (by decide) (by decide) (by decide) (by decide)

end YourDNS
